import Mathlib

/-!
Verification development for the SecureFileShredder repository.

We give a shallow embedding of the core of `file_shredder.py`:
the `FileShredder` class with its `shred_file`, `shred_files`,
`_verify_pattern`, `_check_file_content` and the candidate-evaluation
logic of `find_files`, and prove the specification claims about it.

Bytes are modelled as `Nat` (values kept below 256 by construction:
fixed patterns are 0x00 / 0xFF and random draws are taken mod 256).
File contents are `List Nat`.  Progress fractions are modelled as `ℚ`
(Python computes them in floating point; all values arising here are
exact dyadic/rational values and the float operations are monotone
roundings of the rational ones, so order facts transfer).
The I/O environment is explicit: a `rng` stream supplies the
`random.randint(0, 255)` draws, and a `corrupt` function gives the byte
content that the verification read observes for each pass (the identity
models a fault-free filesystem).
-/

namespace Shredder

/-- The observable events of a `shred_file` run: a chunk write belonging to a
given pass, a progress-callback invocation, and the `os.remove` call. -/
inductive Event where
  | write (passNum : Nat) (data : List Nat)
  | progress (value : ℚ)
  | remove
deriving DecidableEq, Repr

/-- `ShreddingMethod` from `file_shredder.py`. -/
inductive ShreddingMethod where
  | basic
  | dod
deriving DecidableEq, Repr

/-- The constructor arguments of `FileShredder.__init__`
(`method`, `passes`, `verify`).  No validation is performed there. -/
structure Config where
  method : ShreddingMethod
  passes : Nat
  verify : Bool
deriving DecidableEq, Repr

/-- `FileShredder._dod_patterns`: the DoD 5220.22-M pattern sequence;
`none` stands for Python's `None` (a random pattern drawn at pass time). -/
def dodPatterns : List (Option Nat) :=
  [some 255, some 0, none, some 0, some 255, none, some 0]

/-- `total_passes` as computed in `shred_file`:
`len(self._dod_patterns)` for DoD, else `self.passes`. -/
def totalPasses (cfg : Config) : Nat :=
  match cfg.method with
  | .dod => dodPatterns.length
  | .basic => cfg.passes

/-- The pattern selection of `shred_file` for a given pass number
(1-based), before the random draw: `some b` is a fixed byte,
`none` means a fresh random byte is drawn. -/
def passPattern (method : ShreddingMethod) (passNum : Nat) : Option Nat :=
  match method with
  | .dod => dodPatterns.getD (passNum - 1) (some 0)
  | .basic =>
    if passNum = 1 then some 255
    else if passNum = 2 then some 0
    else none

/-- Number of random draws consumed by the passes strictly before
`passNum`(used to index into the rng stream). For BASIC, passes 3,4,…
draw; for DoD, passes 3 and 6 draw. -/
def drawsBefore (method : ShreddingMethod) (passNum : Nat) : Nat :=
  match method with
  | .basic => passNum - 1 - min (passNum - 1) 2
  | .dod => (if 3 < passNum then 1 else 0) + (if 6 < passNum then 1 else 0)

/-- The byte actually written during a pass, given the rng stream. -/
def passByte (method : ShreddingMethod) (rng : Nat → Nat) (passNum : Nat) : Nat :=
  match passPattern method passNum with
  | some b => b
  | none => rng (drawsBefore method passNum) % 256

/-- Fuel-driven kernel of `passChunks`; `fuel` is an upper bound on the
number of remaining loop iterations (the byte count works). -/
def passChunksAux (b chunkSize : Nat) : Nat → Nat → List (List Nat)
  | 0, _ => []
  | fuel + 1, remaining =>
    if remaining = 0 then []
    else if remaining < chunkSize then [List.replicate remaining b]
    else List.replicate chunkSize b :: passChunksAux b chunkSize fuel (remaining - chunkSize)

/-- The chunk contents written by the overwrite loop of `shred_file` for one
pass over `remaining` outstanding bytes: full chunks of `chunkSize` copies
of the pattern byte and a final shorter chunk of exactly the remaining
byte count. -/
def passChunks (b chunkSize remaining : Nat) : List (List Nat) :=
  passChunksAux b chunkSize remaining remaining

/-- Fuel-driven kernel of `writePhase`. -/
def writePhaseAux (b chunkSize passNum progressPasses S : Nat) : Nat → Nat → List Event
  | 0, _ => []
  | fuel + 1, bw =>
    if S - bw = 0 then []
    else if S - bw < chunkSize then
      [Event.write passNum (List.replicate (S - bw) b),
       Event.progress ((((passNum : ℚ) - 1) + ((bw + (S - bw) : Nat) : ℚ) / (S : ℚ)) / (progressPasses : ℚ))]
    else
      Event.write passNum (List.replicate chunkSize b) ::
      Event.progress ((((passNum : ℚ) - 1) + ((bw + chunkSize : Nat) : ℚ) / (S : ℚ)) / (progressPasses : ℚ)) ::
      writePhaseAux b chunkSize passNum progressPasses S fuel (bw + chunkSize)

/-- The write loop of `shred_file` for one pass: alternating chunk writes and
progress callbacks.  `bw` is `bytes_written`; after each chunk the callback
receives `((pass_num - 1) + bytes_written / file_size) / progress_passes`. -/
def writePhase (b chunkSize passNum progressPasses S bw : Nat) : List Event :=
  writePhaseAux b chunkSize passNum progressPasses S (S - bw) bw

/-- Fuel-driven kernel of `verifyLoop`. -/
def verifyLoopAux (pattern : Option Nat) (content : List Nat) (chunkSize : Nat) :
    Nat → Nat → Nat → Bool
  | 0, _, _ => true
  | fuel + 1, pos, remaining =>
    if remaining = 0 then true
    else
      let vs := min chunkSize remaining
      let chunk := (content.drop pos).take vs
      let ok : Bool :=
        match pattern with
        | none =>
          !(decide (chunk = List.replicate chunk.length 0) ||
            decide (chunk = List.replicate chunk.length 255))
        | some b => decide (chunk = List.replicate vs b)
      if ok then verifyLoopAux pattern content chunkSize fuel (pos + vs) (remaining - vs)
      else false

/-- `FileShredder._verify_pattern`'s read loop over the observed file
`content`.  `pattern = none` is the random-pattern branch (reject a chunk
that is uniformly all-0x00 or all-0xFF); `pattern = some b` compares the
chunk byte-exactly against the repeated pattern byte. -/
def verifyLoop (pattern : Option Nat) (content : List Nat) (chunkSize pos remaining : Nat) : Bool :=
  verifyLoopAux pattern content chunkSize remaining pos remaining

/-- `FileShredder._verify_pattern` (the seek-to-0-and-read-back check). -/
def verifyPattern (pattern : Option Nat) (content : List Nat) (fileSize chunkSize : Nat) : Bool :=
  verifyLoop pattern content chunkSize 0 fileSize

/-- The progress value reported after verifying a pass:
`(pass_num - 0.5) / total_passes`.  Note the denominator is
`total_passes`, not the doubled `progress_passes`. -/
def verifyEvent (passNum total : Nat) : Event :=
  Event.progress (((passNum : ℚ) - 1 / 2) / (total : ℚ))

/-- Whether the verification of pass `passNum` succeeds, given that the
pass wrote its byte over the whole file and `corrupt` describes the
content observed by the read-back. -/
def verifyOKAt (method : ShreddingMethod) (S chunkSize : Nat)
    (rng : Nat → Nat) (corrupt : Nat → List Nat → List Nat) (passNum : Nat) : Bool :=
  let b := passByte method rng passNum
  verifyPattern (some b) (corrupt passNum (List.replicate S b)) S chunkSize

/-- Fuel-driven kernel of `shredLoop`; the fuel is exactly the number of
passes still to perform plus one. -/
def shredLoopAux (method : ShreddingMethod) (verify : Bool)
    (S chunkSize total progressPasses : Nat)
    (rng : Nat → Nat) (corrupt : Nat → List Nat → List Nat) :
    Nat → Nat → Nat → Bool × List Event
  | 0, _, _ => (true, [])
  | fuel + 1, passNum, rngIdx =>
    let drawn :=
      match passPattern method passNum with
      | some b => (b, rngIdx)
      | none => (rng rngIdx % 256, rngIdx + 1)
    let b := drawn.1
    let wEvs := writePhase b chunkSize passNum progressPasses S 0
    if verify then
      if verifyPattern (some b) (corrupt passNum (List.replicate S b)) S chunkSize then
        let rest := shredLoopAux method verify S chunkSize total progressPasses rng corrupt
          fuel (passNum + 1) drawn.2
        (rest.1, wEvs ++ verifyEvent passNum total :: rest.2)
      else (false, wEvs)
    else
      let rest := shredLoopAux method verify S chunkSize total progressPasses rng corrupt
        fuel (passNum + 1) drawn.2
      (rest.1, wEvs ++ rest.2)

/-- The pass loop of `shred_file` (the `for pass_num in range(1, total_passes + 1)`
loop). Returns the overall success flag together with the emitted events.
`rngIdx` tracks the position in the random stream. -/
def shredLoop (method : ShreddingMethod) (verify : Bool)
    (S chunkSize total progressPasses : Nat)
    (rng : Nat → Nat) (corrupt : Nat → List Nat → List Nat)
    (passNum rngIdx : Nat) : Bool × List Event :=
  shredLoopAux method verify S chunkSize total progressPasses rng corrupt
    (total + 1 - passNum) passNum rngIdx

/-- The result of a `shred_file` call: the returned boolean and the event
trace (chunk writes, progress callbacks, deletion). -/
structure ShredResult where
  success : Bool
  events : List Event
deriving DecidableEq, Repr

/-- `FileShredder.shred_file`.  `present` models `os.path.exists`;
`S` is `os.path.getsize`; `rng` supplies the `random.randint(0, 255)`
draws; `corrupt p c` is the byte content observed when re-reading the file
for verification of pass `p` whose writes produced content `c`
(`fun _ c => c` models a fault-free filesystem). -/
def shredFile (present : Bool) (S : Nat) (cfg : Config)
    (rng : Nat → Nat) (corrupt : Nat → List Nat → List Nat) : ShredResult :=
  if present = false then ⟨false, []⟩
  else if S = 0 then ⟨true, [Event.remove]⟩
  else
    let total := totalPasses cfg
    let progressPasses := if cfg.verify then total * 2 else total
    let chunkSize := min 1048576 S
    let run := shredLoop cfg.method cfg.verify S chunkSize total progressPasses rng corrupt 1 0
    if run.1 then ⟨true, run.2 ++ [Event.remove, Event.progress 1]⟩
    else ⟨false, run.2⟩

/-- The canonical event block of one completed pass: its chunk writes with
their progress callbacks, followed by the verification progress callback
when verification is enabled. -/
def passSeg (method : ShreddingMethod) (verify : Bool)
    (S chunkSize total progressPasses : Nat) (rng : Nat → Nat) (p : Nat) : List Event :=
  writePhase (passByte method rng p) chunkSize p progressPasses S 0 ++
    (if verify then [verifyEvent p total] else [])

/-- The canonical event trace of `count` consecutive completed passes
starting at pass `p`. -/
def segsFrom (method : ShreddingMethod) (verify : Bool)
    (S chunkSize total progressPasses : Nat) (rng : Nat → Nat) :
    Nat → Nat → List Event
  | _, 0 => []
  | p, count + 1 =>
    passSeg method verify S chunkSize total progressPasses rng p ++
      segsFrom method verify S chunkSize total progressPasses rng (p + 1) count

/-- The chunk data of the write events belonging to pass `p`, in order. -/
def writesOfPass (events : List Event) (p : Nat) : List (List Nat) :=
  events.filterMap fun e =>
    match e with
    | .write q d => if q = p then some d else none
    | _ => none

/-- The sequence of fractions passed to the progress callback, in order. -/
def progressValues (events : List Event) : List ℚ :=
  events.filterMap fun e =>
    match e with
    | .progress v => some v
    | _ => none

/-! ## Batch shredding (`FileShredder.shred_files`) -/

/-- The state of one file handed to the batch: whether it is present, its
size, and the I/O environment of its own `shred_file` run. -/
structure FileSpec where
  present : Bool
  size : Nat
  rng : Nat → Nat
  corrupt : Nat → List Nat → List Nat

/-- Running `shred_file` on one batch entry. -/
def runSpec (cfg : Config) (fs : FileSpec) : ShredResult :=
  shredFile fs.present fs.size cfg fs.rng fs.corrupt

/-- The observable outcome of `shred_files`: the `(successful, failed)`
counters and the sequence of `file_complete_callback(path, success)`
invocations, in order. -/
structure BatchResult (α : Type) where
  successful : Nat
  failed : Nat
  completions : List (α × Bool)

/-- The `for i, file_path in enumerate(files)` loop of `shred_files`:
each file is shredded, the matching counter is bumped, and the completion
callback is invoked.  (`shred_file` catches all its own exceptions and the
callbacks are modelled as total, so the `except` arm of the loop is dead.) -/
def shredFilesLoop {α : Type} (runOne : α → Bool) : BatchResult α → List α → BatchResult α
  | acc, [] => acc
  | acc, f :: rest =>
    let result := runOne f
    let acc' :=
      if result then
        { acc with successful := acc.successful + 1, completions := acc.completions ++ [(f, result)] }
      else
        { acc with failed := acc.failed + 1, completions := acc.completions ++ [(f, result)] }
    shredFilesLoop runOne acc' rest

/-- `FileShredder.shred_files`. -/
def shredFiles (cfg : Config) (files : List FileSpec) : BatchResult FileSpec :=
  shredFilesLoop (fun fs => (runSpec cfg fs).success) ⟨0, 0, []⟩ files

/-! ## File discovery (`FileShredder.find_files` and `_check_file_content`) -/

/-- Python's `str.count` scanner on character lists: non-overlapping,
case-sensitive, left-to-right; a hit advances past the whole pattern.
The fuel is an upper bound on the scan length (the text length works). -/
def countOccAux (p : Char) (ps : List Char) : Nat → List Char → Nat
  | 0, _ => 0
  | _ + 1, [] => 0
  | fuel + 1, c :: rest =>
    if List.isPrefixOf (p :: ps) (c :: rest) then
      1 + countOccAux p ps fuel (rest.drop ps.length)
    else countOccAux p ps fuel rest

/-- Python's `text.count(pattern)` (for the empty pattern Python counts
`len(text) + 1` positions). -/
def strCount (text pattern : String) : Nat :=
  match pattern.toList with
  | [] => text.length + 1
  | p :: ps => countOccAux p ps text.toList.length text.toList

/-- Python's `str.lower()` (character-wise). -/
def strToLower (s : String) : String :=
  String.mk (s.toList.map Char.toLower)

/-- Python's `str.endswith(suffix)`. -/
def strEndsWith (s suffix : String) : Bool :=
  List.isSuffixOf suffix.toList s.toList

/-- `os.path.splitext(path)[1]`: the extension of the last path component,
where the leading dots of a basename never start an extension. -/
def extOf (path : String) : String :=
  let cs := path.toList
  let base := (cs.reverse.takeWhile (· ≠ '/')).reverse
  let rest := base.drop ((base.takeWhile (· = '.')).length)
  let afterLastDot := (rest.reverse.takeWhile (· ≠ '.')).reverse
  if afterLastDot.length = rest.length then ""
  else String.mk ('.' :: afterLastDot)

/-- `str.lower().endswith(tuple)` as used in `find_files`. -/
def lowerEndsWithAny (s : String) (suffixes : List String) : Bool :=
  suffixes.any fun suf => strEndsWith (strToLower s) suf

/-- The image-extension tuple of `find_files`. -/
def imageSuffixes : List String := [".png", ".bmp", ".jpg", ".jpeg", ".tiff", ".gif"]

/-- `OCRProcessor.get_supported_formats()` when OCR is available. -/
def ocrFormats : List String := [".jpg", ".jpeg", ".png", ".bmp", ".tiff", ".gif"]

/-- The plain-text extension list of `_check_file_content`. -/
def textContentExts : List String :=
  [".txt", ".csv", ".json", ".xml", ".html", ".js", ".py", ".md"]

/-- What the content-extraction collaborators observe for one candidate
file: `none` everywhere models an I/O or backend failure (all of which
`_check_file_content` converts to `(False, 0)`). -/
structure ContentEnv where
  text : Option String
  pdfText : Option String
  ocrOccurrences : Option Nat

/-- The `os.stat` data used by `find_files`, with the resolved owner name
(`none` when owner resolution is unsupported or fails). -/
structure FileStat where
  ctime : Int
  mtime : Int
  owner : Option String

/-- One candidate file during discovery: its name, its `os.stat` outcome
(`none` = `OSError`/`IOError`), and its extractable content. -/
structure Candidate where
  filename : String
  stat : Option FileStat
  content : ContentEnv

/-- The keyword arguments of `find_files` that drive candidate evaluation.
`Option`s model Python `None`/falsy defaults; `fnmatch` abstracts the
`fnmatch.fnmatch` glob primitive. -/
structure FindCriteria where
  includePatterns : List String
  excludePatterns : List String
  ownerRegex : Option (String → Bool)
  createdAfter : Option Int
  createdBefore : Option Int
  modifiedAfter : Option Int
  modifiedBefore : Option Int
  contentPattern : Option String
  contentMinOccurrences : Nat
  excludeContentPattern : Option String
  excludeContentMinOccurrences : Nat
  ocrEnabled : Bool

/-- Python truthiness of an optional string argument. -/
def optTruthy (o : Option String) : Bool :=
  match o with
  | none => false
  | some s => !s.toList.isEmpty

/-- `FileShredder._check_file_content`: dispatch on the lower-cased
extension; every extraction failure yields `(False, 0)`. -/
def checkFileContent (ocrAvail : Bool) (c : Candidate) (pattern : String) (minOcc : Nat) :
    Bool × Nat :=
  let ext := extOf (strToLower c.filename)
  if ext = ".pdf" then
    match c.content.pdfText with
    | some t => (decide (strCount t pattern ≥ minOcc), strCount t pattern)
    | none => (false, 0)
  else if ocrAvail && decide (ext ∈ ocrFormats) then
    match c.content.ocrOccurrences with
    | some occ => (decide (occ ≥ minOcc), occ)
    | none => (false, 0)
  else if decide (ext ∈ textContentExts) then
    match c.content.text with
    | some t => (decide (strCount t pattern ≥ minOcc), strCount t pattern)
    | none => (false, 0)
  else (false, 0)

/-- The metadata time filters of `find_files` (each bound independently
optional; a violated bound sets `is_excluded`). -/
def timeExcluded (cr : FindCriteria) (st : FileStat) : Bool :=
  (match cr.createdAfter with | some ca => decide (st.ctime < ca) | none => false) ||
  (match cr.createdBefore with | some cb => decide (st.ctime > cb) | none => false) ||
  (match cr.modifiedAfter with | some ma => decide (st.mtime < ma) | none => false) ||
  (match cr.modifiedBefore with | some mb => decide (st.mtime > mb) | none => false)

/-- The owner filter of `find_files`: excluding only when an owner regex is
configured, the owner was resolved, and the regex does not match. -/
def ownerExcluded (cr : FindCriteria) (st : FileStat) : Bool :=
  match cr.ownerRegex with
  | none => false
  | some rx =>
    match st.owner with
    | none => false
    | some name => !rx name

/-- The outcome of evaluating one candidate in `find_files`: not matching
the include globs (skipped entirely), appended to `matching_files`, or
counted in `excluded_count`. -/
inductive Verdict where
  | skipped
  | matched
  | excluded
deriving DecidableEq, Repr

/-- The per-candidate evaluation of `find_files` (identical in the
recursive and non-recursive branches): include/exclude globs, metadata
filters, then the content include and content exclude filters, with
`OSError`/`IOError` from `os.stat` forcing exclusion. -/
def evalCandidate (ocrAvail pdfLoaded : Bool) (fnmatch : String → String → Bool)
    (cr : FindCriteria) (c : Candidate) : Verdict :=
  let isMatch := cr.includePatterns.any fun p => fnmatch c.filename p
  let isExcluded0 := cr.excludePatterns.any fun p => fnmatch c.filename p
  let isExcluded :=
    if isMatch && !isExcluded0 then
      match c.stat with
      | none => true
      | some st =>
        let e1 := isExcluded0 || timeExcluded cr st
        let e2 := e1 || ownerExcluded cr st
        let e3 :=
          if optTruthy cr.contentPattern && !e2 then
            let isImage := lowerEndsWithAny c.filename imageSuffixes
            let isText := lowerEndsWithAny c.filename [".txt", ".csv"]
            let isPdf := strEndsWith (strToLower c.filename) ".pdf" && pdfLoaded
            if isText || isPdf || (isImage && cr.ocrEnabled && ocrAvail) then
              !(checkFileContent ocrAvail c (cr.contentPattern.getD "") cr.contentMinOccurrences).1
            else e2
          else e2
        let e4 :=
          if optTruthy cr.excludeContentPattern && !e3 then
            let isImage := lowerEndsWithAny c.filename imageSuffixes
            let isText := lowerEndsWithAny c.filename [".txt", ".csv"]
            let isPdf := strEndsWith (strToLower c.filename) ".pdf" && pdfLoaded
            if isText || isPdf || (isImage && cr.ocrEnabled && ocrAvail) then
              if (checkFileContent ocrAvail c (cr.excludeContentPattern.getD "")
                  cr.excludeContentMinOccurrences).1 then true
              else e3
            else e3
          else e3
        e4
    else isExcluded0
  if isMatch then (if isExcluded then Verdict.excluded else Verdict.matched)
  else Verdict.skipped

/-- The accumulation loop of `find_files` over the enumerated candidates:
the matched list (in discovery order) and the excluded counter. -/
def findFiles (ocrAvail pdfLoaded : Bool) (fnmatch : String → String → Bool)
    (cr : FindCriteria) (cands : List Candidate) : List Candidate × Nat :=
  cands.foldl
    (fun acc c =>
      match evalCandidate ocrAvail pdfLoaded fnmatch cr c with
      | .matched => (acc.1 ++ [c], acc.2)
      | .excluded => (acc.1, acc.2 + 1)
      | .skipped => acc)
    ([], 0)

/-! ## Structural lemmas about the shred loop -/

lemma drawsBefore_one (method : ShreddingMethod) : drawsBefore method 1 = 0 := by
  cases method <;> rfl

lemma passPattern_dod_isNone (p : Nat) :
    (passPattern .dod p).isNone = (decide (p = 3) || decide (p = 6)) := by
  match p with
  | 0 | 1 | 2 | 3 | 4 | 5 | 6 | 7 => rfl
  | n + 8 =>
    have h : passPattern .dod (n + 8) = some 0 := by
      simp only [passPattern, dodPatterns]
      apply List.getD_eq_default
      simp
    rw [h]
    simp

lemma drawsBefore_succ (method : ShreddingMethod) (p : Nat) (hp : 1 ≤ p) :
    drawsBefore method (p + 1) =
      drawsBefore method p + (if (passPattern method p).isNone then 1 else 0) := by
  cases method with
  | basic =>
    by_cases h1 : p = 1
    · subst h1; rfl
    · by_cases h2 : p = 2
      · subst h2; rfl
      · have : (passPattern .basic p).isNone = true := by
          simp [passPattern, h1, h2]
        rw [this]
        simp [drawsBefore]
        omega
  | dod =>
    rw [passPattern_dod_isNone]
    simp only [drawsBefore]
    by_cases h3 : p = 3
    · subst h3; rfl
    · by_cases h6 : p = 6
      · subst h6; rfl
      · simp [h3, h6]
        split <;> split <;> split <;> split <;> omega

lemma passByte_eq_of_some {method : ShreddingMethod} {p b : Nat}
    (h : passPattern method p = some b) (rng : Nat → Nat) :
    passByte method rng p = b := by
  simp [passByte, h]

lemma passByte_eq_of_none {method : ShreddingMethod} {p : Nat}
    (h : passPattern method p = none) (rng : Nat → Nat) :
    passByte method rng p = rng (drawsBefore method p) % 256 := by
  simp [passByte, h]

lemma writesOfPass_append (l₁ l₂ : List Event) (p : Nat) :
    writesOfPass (l₁ ++ l₂) p = writesOfPass l₁ p ++ writesOfPass l₂ p := by
  simp [writesOfPass]

lemma writesOfPass_writePhaseAux (b chunkSize passNum progressPasses S : Nat) :
    ∀ fuel bw, writesOfPass (writePhaseAux b chunkSize passNum progressPasses S fuel bw) passNum =
      passChunksAux b chunkSize fuel (S - bw) := by
  intro fuel
  induction fuel with
  | zero => intro bw; rfl
  | succ fuel ih =>
    intro bw
    simp only [writePhaseAux, passChunksAux]
    by_cases h0 : S - bw = 0
    · simp [h0, writesOfPass]
    · by_cases hlt : S - bw < chunkSize
      · simp [h0, hlt, writesOfPass]
      · have : S - (bw + chunkSize) = S - bw - chunkSize := by omega
        simp [h0, hlt, writesOfPass, List.filterMap] at ih ⊢
        rw [← this]
        exact ih (bw + chunkSize)

lemma writesOfPass_writePhaseAux_ne (b chunkSize passNum progressPasses S : Nat)
    {q : Nat} (hq : q ≠ passNum) :
    ∀ fuel bw, writesOfPass (writePhaseAux b chunkSize passNum progressPasses S fuel bw) q = [] := by
  intro fuel
  induction fuel with
  | zero => intro bw; rfl
  | succ fuel ih =>
    intro bw
    simp only [writePhaseAux]
    by_cases h0 : S - bw = 0
    · simp [h0, writesOfPass]
    · by_cases hlt : S - bw < chunkSize
      · simp [h0, hlt, writesOfPass, Ne.symm hq]
      · simp [h0, hlt, writesOfPass, Ne.symm hq, List.filterMap] at ih ⊢
        exact ih (bw + chunkSize)

lemma writesOfPass_writePhase (b chunkSize passNum progressPasses S : Nat) :
    writesOfPass (writePhase b chunkSize passNum progressPasses S 0) passNum =
      passChunks b chunkSize S := by
  simpa using writesOfPass_writePhaseAux b chunkSize passNum progressPasses S S 0

lemma remove_not_mem_writePhaseAux (b chunkSize passNum progressPasses S : Nat) :
    ∀ fuel bw, Event.remove ∉ writePhaseAux b chunkSize passNum progressPasses S fuel bw := by
  intro fuel
  induction fuel with
  | zero => intro bw; simp [writePhaseAux]
  | succ fuel ih =>
    intro bw
    simp only [writePhaseAux]
    by_cases h0 : S - bw = 0
    · simp [h0]
    · by_cases hlt : S - bw < chunkSize
      · simp [h0, hlt]
      · simp [h0, hlt]
        exact ih (bw + chunkSize)

lemma passChunksAux_flatten (b chunkSize : Nat) (hc : 0 < chunkSize) :
    ∀ fuel r, r ≤ fuel → (passChunksAux b chunkSize fuel r).flatten = List.replicate r b := by
  intro fuel
  induction fuel with
  | zero =>
    intro r hr
    interval_cases r
    rfl
  | succ fuel ih =>
    intro r hr
    simp only [passChunksAux]
    by_cases h0 : r = 0
    · simp [h0]
    · by_cases hlt : r < chunkSize
      · simp [h0, hlt]
      · simp only [h0, hlt, if_false]
        rw [List.flatten_cons, ih (r - chunkSize) (by omega)]
        rw [← List.replicate_add]
        congr 1
        omega

lemma passChunks_flatten (b chunkSize r : Nat) (hc : 0 < chunkSize) :
    (passChunks b chunkSize r).flatten = List.replicate r b :=
  passChunksAux_flatten b chunkSize hc r r le_rfl

lemma passChunksAux_dropLast_length (b chunkSize : Nat) :
    ∀ fuel r, ∀ ch ∈ (passChunksAux b chunkSize fuel r).dropLast, ch.length = chunkSize := by
  intro fuel
  induction fuel with
  | zero => intro r ch h; simp [passChunksAux] at h
  | succ fuel ih =>
    intro r ch h
    simp only [passChunksAux] at h
    by_cases h0 : r = 0
    · simp [h0] at h
    · by_cases hlt : r < chunkSize
      · simp [h0, hlt] at h
      · simp only [h0, hlt, if_false] at h
        rcases hrest : passChunksAux b chunkSize fuel (r - chunkSize) with _ | ⟨x, xs⟩
        · rw [hrest] at h; simp at h
        · rw [hrest] at h
          rw [List.dropLast_cons_of_ne_nil (by simp)] at h
          rcases List.mem_cons.mp h with h | h
          · subst h; simp
          · exact ih (r - chunkSize) ch (by rw [hrest]; exact h)

lemma passChunks_dropLast_length (b chunkSize r : Nat) :
    ∀ ch ∈ (passChunks b chunkSize r).dropLast, ch.length = chunkSize :=
  passChunksAux_dropLast_length b chunkSize r r

lemma passChunks_length_sum (b chunkSize r : Nat) (hc : 0 < chunkSize) :
    ((passChunks b chunkSize r).map List.length).sum = r := by
  have := congrArg List.length (passChunks_flatten b chunkSize r hc)
  simpa [List.length_flatten] using this

lemma passChunks_ne_nil (b chunkSize r : Nat) (hc : 0 < chunkSize) (hr : 0 < r) :
    passChunks b chunkSize r ≠ [] := by
  intro h
  have := passChunks_flatten b chunkSize r hc
  rw [h] at this
  have := congrArg List.length this
  simp at this
  omega

lemma verifyLoopAux_replicate (b chunkSize S : Nat) (hc : 0 < chunkSize) :
    ∀ fuel pos r, r ≤ fuel → pos + r ≤ S →
      verifyLoopAux (some b) (List.replicate S b) chunkSize fuel pos r = true := by
  intro fuel
  induction fuel with
  | zero =>
    intro pos r hr _
    interval_cases r
    rfl
  | succ fuel ih =>
    intro pos r hr hS
    simp only [verifyLoopAux]
    by_cases h0 : r = 0
    · simp [h0]
    · have hchunk : ((List.replicate S b).drop pos).take (min chunkSize r) =
          List.replicate (min chunkSize r) b := by
        rw [List.drop_replicate, List.take_replicate]
        congr 1
        omega
      simp only [h0, if_false, hchunk]
      simp only [decide_eq_true_eq, eq_self_iff_true, if_true]
      exact ih (pos + min chunkSize r) (r - min chunkSize r) (by omega) (by omega)

/-- With a fault-free read-back (`corrupt` is the identity), every
fixed-byte verification succeeds. -/
lemma verifyOKAt_id (method : ShreddingMethod) (S chunkSize : Nat) (hc : 0 < chunkSize)
    (rng : Nat → Nat) (p : Nat) :
    verifyOKAt method S chunkSize rng (fun _ c => c) p = true := by
  simp only [verifyOKAt, verifyPattern, verifyLoop]
  exact verifyLoopAux_replicate _ _ _ hc S 0 S le_rfl (by omega)

lemma shredLoop_unfold (method : ShreddingMethod) (verify : Bool)
    (S chunkSize total progressPasses : Nat)
    (rng : Nat → Nat) (corrupt : Nat → List Nat → List Nat) (passNum rngIdx : Nat) :
    shredLoop method verify S chunkSize total progressPasses rng corrupt passNum rngIdx =
      if total < passNum then (true, [])
      else
        let drawn :=
          match passPattern method passNum with
          | some b => (b, rngIdx)
          | none => (rng rngIdx % 256, rngIdx + 1)
        let wEvs := writePhase drawn.1 chunkSize passNum progressPasses S 0
        if verify then
          if verifyPattern (some drawn.1) (corrupt passNum (List.replicate S drawn.1)) S chunkSize then
            let rest := shredLoop method verify S chunkSize total progressPasses rng corrupt
              (passNum + 1) drawn.2
            (rest.1, wEvs ++ verifyEvent passNum total :: rest.2)
          else (false, wEvs)
        else
          let rest := shredLoop method verify S chunkSize total progressPasses rng corrupt
            (passNum + 1) drawn.2
          (rest.1, wEvs ++ rest.2) := by
  by_cases h : total < passNum
  · have h0 : total + 1 - passNum = 0 := by omega
    simp only [shredLoop, h0, shredLoopAux, if_pos h]
  · have h1 : total + 1 - passNum = (total - passNum) + 1 := by omega
    have h2 : total + 1 - (passNum + 1) = total - passNum := by omega
    simp only [shredLoop, h1, h2, shredLoopAux, if_neg h]

/-- If every remaining verification succeeds (vacuous when verification is
off), the loop completes and emits the canonical trace. -/
lemma shredLoop_ok (method : ShreddingMethod) (verify : Bool)
    (S chunkSize total progressPasses : Nat)
    (rng : Nat → Nat) (corrupt : Nat → List Nat → List Nat) :
    ∀ m passNum, total + 1 - passNum = m → 1 ≤ passNum →
    (verify = true → ∀ p, passNum ≤ p → p ≤ total →
      verifyOKAt method S chunkSize rng corrupt p = true) →
    shredLoop method verify S chunkSize total progressPasses rng corrupt passNum
      (drawsBefore method passNum) =
      (true, segsFrom method verify S chunkSize total progressPasses rng passNum m) := by
  intro m
  induction m with
  | zero =>
    intro passNum hm _ _
    rw [shredLoop_unfold]
    rw [if_pos (by omega)]
    rfl
  | succ m ih =>
    intro passNum hm hp hver
    rw [shredLoop_unfold]
    rw [if_neg (by omega)]
    have hb : (match passPattern method passNum with
        | some b => (b, drawsBefore method passNum)
        | none => (rng (drawsBefore method passNum) % 256, drawsBefore method passNum + 1)) =
        (passByte method rng passNum, drawsBefore method (passNum + 1)) := by
      rw [drawsBefore_succ method passNum hp]
      cases hpp : passPattern method passNum with
      | some b => simp [passByte, hpp]
      | none => simp [passByte, hpp]
    simp only [hb]
    have hrec := ih (passNum + 1) (by omega) (by omega)
      (fun hv p h1 h2 => hver hv p (by omega) h2)
    cases hv : verify with
    | false =>
      rw [hv] at hrec
      simp only [Bool.false_eq_true, if_false]
      rw [hrec]
      simp [segsFrom, passSeg]
    | true =>
      rw [hv] at hrec
      simp only [if_true]
      have hvp := hver hv passNum le_rfl (by omega)
      simp only [verifyOKAt] at hvp
      rw [if_pos hvp]
      rw [hrec]
      simp [segsFrom, passSeg]

/-- Conversely, a successful loop run implies every verification in range
succeeded. -/
lemma shredLoop_success_verify (method : ShreddingMethod)
    (S chunkSize total progressPasses : Nat)
    (rng : Nat → Nat) (corrupt : Nat → List Nat → List Nat) :
    ∀ m passNum, total + 1 - passNum = m → 1 ≤ passNum →
    (shredLoop method true S chunkSize total progressPasses rng corrupt passNum
      (drawsBefore method passNum)).1 = true →
    ∀ p, passNum ≤ p → p ≤ total →
      verifyOKAt method S chunkSize rng corrupt p = true := by
  intro m
  induction m with
  | zero =>
    intro passNum hm _ _ p h1 h2
    omega
  | succ m ih =>
    intro passNum hm hp hsucc p h1 h2
    rw [shredLoop_unfold, if_neg (by omega)] at hsucc
    have hb : (match passPattern method passNum with
        | some b => (b, drawsBefore method passNum)
        | none => (rng (drawsBefore method passNum) % 256, drawsBefore method passNum + 1)) =
        (passByte method rng passNum, drawsBefore method (passNum + 1)) := by
      rw [drawsBefore_succ method passNum hp]
      cases hpp : passPattern method passNum with
      | some b => simp [passByte, hpp]
      | none => simp [passByte, hpp]
    simp only [hb, if_true] at hsucc
    by_cases hvp : verifyPattern (some (passByte method rng passNum))
        (corrupt passNum (List.replicate S (passByte method rng passNum))) S chunkSize = true
    · rw [if_pos hvp] at hsucc
      simp only at hsucc
      rcases Nat.eq_or_lt_of_le h1 with h | h
      · subst h
        simpa [verifyOKAt, verifyPattern] using hvp
      · exact ih (passNum + 1) (by omega) (by omega) hsucc p (by omega) h2
    · rw [if_neg hvp] at hsucc
      simp at hsucc

lemma writesOfPass_passSeg (method : ShreddingMethod) (verify : Bool)
    (S chunkSize total progressPasses : Nat) (rng : Nat → Nat) (p q : Nat) :
    writesOfPass (passSeg method verify S chunkSize total progressPasses rng p) q =
      if q = p then passChunks (passByte method rng p) chunkSize S else [] := by
  simp only [passSeg, writesOfPass_append]
  by_cases h : q = p
  · subst h
    have h2 : writesOfPass (if verify then [verifyEvent q total] else []) q = [] := by
      cases verify <;> simp [writesOfPass, verifyEvent]
    rw [h2, if_pos rfl]
    have := writesOfPass_writePhaseAux (passByte method rng q) chunkSize q progressPasses S S 0
    simpa [writePhase, passChunks, writesOfPass] using this
  · have h1 : writesOfPass (writePhase (passByte method rng p) chunkSize p progressPasses S 0) q = [] :=
      writesOfPass_writePhaseAux_ne (passByte method rng p) chunkSize p progressPasses S h S 0
    have h2 : writesOfPass (if verify then [verifyEvent p total] else []) q = [] := by
      cases verify <;> simp [writesOfPass, verifyEvent]
    simp [h1, h2, h]

lemma writesOfPass_segsFrom (method : ShreddingMethod) (verify : Bool)
    (S chunkSize total progressPasses : Nat) (rng : Nat → Nat) :
    ∀ count start q,
      writesOfPass (segsFrom method verify S chunkSize total progressPasses rng start count) q =
        if start ≤ q ∧ q < start + count then
          passChunks (passByte method rng q) chunkSize S
        else [] := by
  intro count
  induction count with
  | zero =>
    intro start q
    rw [if_neg (by omega)]
    rfl
  | succ count ih =>
    intro start q
    simp only [segsFrom, writesOfPass_append, writesOfPass_passSeg, ih (start + 1) q]
    by_cases h1 : q = start
    · subst h1
      rw [if_pos rfl, if_neg (by omega), if_pos (by omega)]
      simp
    · rw [if_neg h1]
      by_cases h2 : start + 1 ≤ q ∧ q < start + 1 + count
      · rw [if_pos h2, if_pos (by omega)]
        simp
      · rw [if_neg h2, if_neg (by omega)]
        simp

lemma remove_not_mem_passSeg (method : ShreddingMethod) (verify : Bool)
    (S chunkSize total progressPasses : Nat) (rng : Nat → Nat) (p : Nat) :
    Event.remove ∉ passSeg method verify S chunkSize total progressPasses rng p := by
  simp only [passSeg, List.mem_append]
  rintro (h | h)
  · exact remove_not_mem_writePhaseAux _ _ _ _ _ _ 0 h
  · cases verify <;> simp [verifyEvent] at h

lemma remove_not_mem_segsFrom (method : ShreddingMethod) (verify : Bool)
    (S chunkSize total progressPasses : Nat) (rng : Nat → Nat) :
    ∀ count start,
      Event.remove ∉ segsFrom method verify S chunkSize total progressPasses rng start count := by
  intro count
  induction count with
  | zero => intro start; simp [segsFrom]
  | succ count ih =>
    intro start
    simp only [segsFrom, List.mem_append]
    rintro (h | h)
    · exact remove_not_mem_passSeg _ _ _ _ _ _ _ _ h
    · exact ih (start + 1) h

/-- If the first failing verification is at pass `k`, the loop stops there
with failure: the canonical blocks of passes before `k` followed by the
writes of pass `k` and nothing else. -/
lemma shredLoop_fail (method : ShreddingMethod)
    (S chunkSize total progressPasses : Nat)
    (rng : Nat → Nat) (corrupt : Nat → List Nat → List Nat) (k : Nat)
    (hk : k ≤ total)
    (hfail : verifyOKAt method S chunkSize rng corrupt k = false) :
    ∀ m passNum, total + 1 - passNum = m → 1 ≤ passNum → passNum ≤ k →
    (∀ p, passNum ≤ p → p < k → verifyOKAt method S chunkSize rng corrupt p = true) →
    shredLoop method true S chunkSize total progressPasses rng corrupt passNum
      (drawsBefore method passNum) =
      (false,
        segsFrom method true S chunkSize total progressPasses rng passNum (k - passNum) ++
          writePhase (passByte method rng k) chunkSize k progressPasses S 0) := by
  intro m
  induction m with
  | zero =>
    intro passNum hm _ hpk _
    omega
  | succ m ih =>
    intro passNum hm hp hpk hok
    rw [shredLoop_unfold, if_neg (by omega)]
    have hb : (match passPattern method passNum with
        | some b => (b, drawsBefore method passNum)
        | none => (rng (drawsBefore method passNum) % 256, drawsBefore method passNum + 1)) =
        (passByte method rng passNum, drawsBefore method (passNum + 1)) := by
      rw [drawsBefore_succ method passNum hp]
      cases hpp : passPattern method passNum with
      | some b => simp [passByte, hpp]
      | none => simp [passByte, hpp]
    simp only [hb, if_true]
    rcases Nat.eq_or_lt_of_le hpk with heq | hlt
    · subst heq
      have : verifyPattern (some (passByte method rng passNum))
          (corrupt passNum (List.replicate S (passByte method rng passNum))) S chunkSize = false := by
        simpa [verifyOKAt] using hfail
      rw [this]
      simp [segsFrom]
    · have hvp : verifyPattern (some (passByte method rng passNum))
          (corrupt passNum (List.replicate S (passByte method rng passNum))) S chunkSize = true := by
        simpa [verifyOKAt] using hok passNum le_rfl hlt
      rw [hvp]
      simp only
      rw [ih (passNum + 1) (by omega) (by omega) (by omega)
        (fun p h1 h2 => hok p (by omega) h2)]
      have hcount : k - passNum = (k - (passNum + 1)) + 1 := by omega
      rw [hcount]
      simp [segsFrom, passSeg]

/-- Success normal form of `shred_file` on a present, non-empty file: the
run returned `True` iff every verification succeeded, and in that case the
event trace is the canonical pass blocks followed by the deletion and the
final `callback(1.0)`. -/
lemma shredFile_success_eq (S : Nat) (cfg : Config) (rng : Nat → Nat)
    (corrupt : Nat → List Nat → List Nat) (hS : 0 < S)
    (hok : (shredFile true S cfg rng corrupt).success = true) :
    shredFile true S cfg rng corrupt =
      ⟨true,
        segsFrom cfg.method cfg.verify S (min 1048576 S) (totalPasses cfg)
          (if cfg.verify then totalPasses cfg * 2 else totalPasses cfg) rng 1 (totalPasses cfg) ++
          [Event.remove, Event.progress 1]⟩ := by
  have hfin :
      shredLoop cfg.method cfg.verify S (min 1048576 S) (totalPasses cfg)
        (if cfg.verify then totalPasses cfg * 2 else totalPasses cfg) rng corrupt 1 0 =
      (true, segsFrom cfg.method cfg.verify S (min 1048576 S) (totalPasses cfg)
        (if cfg.verify then totalPasses cfg * 2 else totalPasses cfg) rng 1 (totalPasses cfg)) := by
    cases hv : cfg.verify with
    | false =>
      rw [← drawsBefore_one cfg.method]
      rw [shredLoop_ok cfg.method false S (min 1048576 S) (totalPasses cfg) _ rng corrupt
        (totalPasses cfg) 1 (by omega) le_rfl (by intro h; cases h)]
    | true =>
      have hsucc : (shredLoop cfg.method cfg.verify S (min 1048576 S) (totalPasses cfg)
          (if cfg.verify then totalPasses cfg * 2 else totalPasses cfg) rng corrupt 1 0).1 = true := by
        by_contra hcon
        simp only [shredFile, if_neg (by simp : ¬(true = false)), if_neg (by omega : ¬S = 0)] at hok
        rcases hrun : shredLoop cfg.method cfg.verify S (min 1048576 S) (totalPasses cfg)
            (if cfg.verify then totalPasses cfg * 2 else totalPasses cfg) rng corrupt 1 0 with ⟨ok, evs⟩
        rw [hrun] at hok
        cases ok
        · simp at hok
        · simp [hrun] at hcon
      rw [hv] at hsucc
      rw [← drawsBefore_one cfg.method] at hsucc ⊢
      have hall := shredLoop_success_verify cfg.method S (min 1048576 S) (totalPasses cfg)
        (if true = true then totalPasses cfg * 2 else totalPasses cfg) rng corrupt
        (totalPasses cfg) 1 (by omega) le_rfl hsucc
      exact shredLoop_ok cfg.method true S (min 1048576 S) (totalPasses cfg) _ rng corrupt
        (totalPasses cfg) 1 (by omega) le_rfl (fun _ => hall)
  simp only [shredFile, if_neg (by simp : ¬(true = false)), if_neg (by omega : ¬S = 0)]
  rw [hfin]
  simp

/-! ## Batch lemmas -/

lemma shredFilesLoop_spec {α : Type} (runOne : α → Bool) :
    ∀ (files : List α) (acc : BatchResult α),
      (shredFilesLoop runOne acc files).successful + (shredFilesLoop runOne acc files).failed =
        acc.successful + acc.failed + files.length ∧
      (shredFilesLoop runOne acc files).completions =
        acc.completions ++ files.map (fun f => (f, runOne f)) := by
  intro files
  induction files with
  | nil =>
    intro acc
    simp [shredFilesLoop]
  | cons f rest ih =>
    intro acc
    simp only [shredFilesLoop]
    cases hr : runOne f with
    | false =>
      simp only [Bool.false_eq_true, if_false]
      rcases ih ⟨acc.successful, acc.failed + 1, acc.completions ++ [(f, false)]⟩ with ⟨hcount, hcomp⟩
      refine ⟨?_, ?_⟩
      · rw [hcount]; simp; omega
      · rw [hcomp]; simp [hr]
    | true =>
      simp only [if_true]
      rcases ih ⟨acc.successful + 1, acc.failed, acc.completions ++ [(f, true)]⟩ with ⟨hcount, hcomp⟩
      refine ⟨?_, ?_⟩
      · rw [hcount]; simp; omega
      · rw [hcomp]; simp [hr]

/-- With a fault-free filesystem (reads observe exactly what was written),
`shred_file` on a present file succeeds for every configuration and every
random stream. -/
lemma shredFile_fault_free (S : Nat) (cfg : Config) (rng : Nat → Nat) :
    (shredFile true S cfg rng (fun _ c => c)).success = true := by
  by_cases hS : S = 0
  · subst hS; rfl
  · have hrun := shredLoop_ok cfg.method cfg.verify S (min 1048576 S) (totalPasses cfg)
      (if cfg.verify then totalPasses cfg * 2 else totalPasses cfg) rng (fun _ c => c)
      (totalPasses cfg) 1 (by omega) le_rfl
      (fun _ p _ _ => verifyOKAt_id cfg.method S (min 1048576 S) (by omega) rng p)
    rw [drawsBefore_one] at hrun
    simp only [shredFile, if_neg (by simp : ¬(true = false)), if_neg hS]
    rw [hrun]
    simp

/-! ## Claim theorems -/

/-- C5: `shred_files` processes the supplied files sequentially in input
order, never escapes with an exception (the model is total), and returns
counters in which every input file is counted exactly once:
`successful + failed` equals the number of inputs, and the completion
callback fires once per file, in input order, with that file's result. -/
theorem batch_counts_and_order (cfg : Config) (files : List FileSpec) :
    (shredFiles cfg files).successful + (shredFiles cfg files).failed = files.length ∧
    (shredFiles cfg files).completions =
      files.map (fun fs => (fs, (runSpec cfg fs).success)) := by
  have h := shredFilesLoop_spec (fun fs => (runSpec cfg fs).success) files ⟨0, 0, []⟩
  simpa [shredFiles] using h

/-- C7 counterexample: on a zero-length file `shred_file` returns `True`
and issues the single delete, but the progress callback is never invoked,
so no final progress value of 1.0 is reported (the claim's last conjunct
fails). -/
theorem empty_file_no_progress_counterexample :
    (shredFile true 0 ⟨.basic, 3, true⟩ (fun _ => 0) (fun _ c => c)).success = true ∧
    (shredFile true 0 ⟨.basic, 3, true⟩ (fun _ => 0) (fun _ c => c)).events = [Event.remove] ∧
    progressValues (shredFile true 0 ⟨.basic, 3, true⟩ (fun _ => 0) (fun _ c => c)).events = [] :=
  ⟨rfl, rfl, rfl⟩

/-- C7 (amended): `shred_file` on a zero-length file performs no overwrite
I/O, issues exactly one filesystem delete call and returns `True`, but it
invokes the progress callback zero times (in particular no final 1.0 is
reported). -/
theorem empty_file_immediate_delete (cfg : Config) (rng : Nat → Nat)
    (corrupt : Nat → List Nat → List Nat) :
    shredFile true 0 cfg rng corrupt = ⟨true, [Event.remove]⟩ ∧
    progressValues (shredFile true 0 cfg rng corrupt).events = [] ∧
    (∀ p, writesOfPass (shredFile true 0 cfg rng corrupt).events p = []) ∧
    (shredFile true 0 cfg rng corrupt).events.count Event.remove = 1 :=
  ⟨rfl, rfl, fun _ => rfl, by rfl⟩

/-- C9 counterexample: the constructor performs no validation, so a BASIC
configuration with pass count 0 is accepted, and `shred_file` then deletes
a non-empty file after zero overwrite passes while reporting success. -/
theorem basic_zero_pass_counterexample :
    shredFile true 1 ⟨.basic, 0, false⟩ (fun _ => 0) (fun _ c => c) =
      ⟨true, [Event.remove, Event.progress 1]⟩ ∧
    writesOfPass (shredFile true 1 ⟨.basic, 0, false⟩ (fun _ => 0) (fun _ c => c)).events 1 = [] := by
  exact ⟨by decide, rfl⟩

/-- C9 (amended): the pass-count invariant is not enforced by the
constructor; but for every BASIC configuration whose pass count is at
least 1, a successful `shred_file` on a non-empty file performs at least
one overwrite pass — pass 1 writes `0xFF` over the whole file — before
the file is deleted. -/
theorem basic_at_least_one_pass (S : Nat) (cfg : Config) (rng : Nat → Nat)
    (corrupt : Nat → List Nat → List Nat)
    (hm : cfg.method = .basic) (hp : 1 ≤ cfg.passes) (hS : 0 < S)
    (hok : (shredFile true S cfg rng corrupt).success = true) :
    writesOfPass (shredFile true S cfg rng corrupt).events 1 ≠ [] ∧
    (writesOfPass (shredFile true S cfg rng corrupt).events 1).flatten = List.replicate S 255 ∧
    ∃ pre, (shredFile true S cfg rng corrupt).events = pre ++ [Event.remove, Event.progress 1] ∧
      Event.remove ∉ pre := by
  have heq := shredFile_success_eq S cfg rng corrupt hS hok
  have htot : 1 ≤ totalPasses cfg := by
    simp [totalPasses, hm]
    omega
  have hb : passByte cfg.method rng 1 = 255 := by rw [hm]; rfl
  have hc : 0 < min 1048576 S := by omega
  have hev : (shredFile true S cfg rng corrupt).events =
      segsFrom cfg.method cfg.verify S (min 1048576 S) (totalPasses cfg)
        (if cfg.verify then totalPasses cfg * 2 else totalPasses cfg) rng 1 (totalPasses cfg) ++
        [Event.remove, Event.progress 1] := by rw [heq]
  have hw : writesOfPass (shredFile true S cfg rng corrupt).events 1 =
      passChunks (passByte cfg.method rng 1) (min 1048576 S) S := by
    rw [hev, writesOfPass_append, writesOfPass_segsFrom, if_pos ⟨le_rfl, by omega⟩]
    simp [writesOfPass]
  refine ⟨?_, ?_, ?_⟩
  · rw [hw]
    exact passChunks_ne_nil _ _ _ hc hS
  · rw [hw, hb]
    exact passChunks_flatten _ _ _ hc
  · exact ⟨_, hev, remove_not_mem_segsFrom _ _ _ _ _ _ _ _ _⟩

/-- C9 amended witness: the default-like configuration (BASIC, 3 passes)
on a 1-byte file satisfies the hypotheses and performs a first pass. -/
theorem basic_at_least_one_pass_witness :
    1 ≤ (3 : Nat) ∧
    writesOfPass (shredFile true 1 ⟨.basic, 3, false⟩ (fun _ => 0) (fun _ c => c)).events 1 ≠ [] :=
  ⟨by decide,
    (basic_at_least_one_pass 1 ⟨.basic, 3, false⟩ (fun _ => 0) (fun _ c => c)
      rfl (by decide) (by decide) (by decide)).1⟩

/-- C10 counterexample: there is no random draw under which a fault-free
`shred_file` with verification enabled returns `False`: the drawn byte is
retained and verified byte-exactly, so the claimed stream of failing draws
does not exist. -/
theorem random_draw_failure_counterexample :
    ¬ ∃ rng : Nat → Nat,
      (shredFile true 2 ⟨.dod, 3, true⟩ rng (fun _ c => c)).success = false := by
  rintro ⟨rng, h⟩
  have hT := shredFile_fault_free 2 ⟨.dod, 3, true⟩ rng
  rw [hT] at h
  cases h

/-- C10 (amended): for every file, configuration and random stream, a
fault-free `shred_file` run succeeds: `shred_file` replaces the `None`
pattern with the concrete drawn byte before writing and verifying, so the
verifier checks the random pass byte-exactly (an all-0x00 or all-0xFF
random pass passes verification); the uniform-chunk rejection branch of
`_verify_pattern` is reachable only with a `None` pattern, which
`shred_file` never passes. -/
theorem random_pass_exact_verification (S : Nat) (cfg : Config) (rng : Nat → Nat) :
    (shredFile true S cfg rng (fun _ c => c)).success = true ∧
    verifyPattern (some 0) (List.replicate S 0) S (min 1048576 S) = true ∧
    verifyPattern (some 255) (List.replicate S 255) S (min 1048576 S) = true := by
  refine ⟨shredFile_fault_free S cfg rng, ?_, ?_⟩ <;>
  · by_cases h : S = 0
    · subst h; rfl
    · exact verifyLoopAux_replicate _ _ S (by omega) S 0 S le_rfl (by omega)

/-- C3: at the failing input (BASIC, 4 passes, verification enabled,
1-byte file) the sequence of fractions reported to the progress callback
is 1/8, 1/8, 1/4, 3/8, 3/8, 5/8, 1/2, 7/8, 1 — the value drops from 5/8
(after pass-3 verification) to 1/2 (after the pass-4 write), so the
reported sequence is not monotonically non-decreasing as the claim
requires. -/
theorem progress_regression_eval :
    progressValues (shredFile true 1 ⟨.basic, 4, true⟩ (fun _ => 7) (fun _ c => c)).events =
      [1/8, 1/8, 1/4, 3/8, 3/8, 5/8, 1/2, 7/8, 1] ∧
    ¬ List.Chain' (· ≤ ·)
      (progressValues (shredFile true 1 ⟨.basic, 4, true⟩ (fun _ => 7) (fun _ c => c)).events) := by
  have h : progressValues (shredFile true 1 ⟨.basic, 4, true⟩ (fun _ => 7) (fun _ c => c)).events =
      [1/8, 1/8, 1/4, 3/8, 3/8, 5/8, 1/2, 7/8, 1] := by
    norm_num [shredFile, shredLoop, shredLoopAux, totalPasses, passPattern, writePhase,
      writePhaseAux, verifyPattern, verifyLoop, verifyLoopAux, verifyEvent, progressValues,
      List.filterMap]
  refine ⟨h, ?_⟩
  rw [h]
  intro hchain
  have h56 := List.chain'_iff_get.mp hchain 5 (by simp)
  simp [List.get] at h56
  norm_num at h56

/-- C1: on a present file of size `S > 0`, a successful `shred_file` run
performs exactly `totalPasses cfg` overwrite passes: pass `p` writes
exactly the canonical chunk sequence (every non-final chunk has
`min 1 MiB S` bytes, the final chunk exactly the remaining bytes, `S`
bytes of the pass's repeating byte in total), no pass outside `1..P`
writes anything, and all writes precede the single deletion, after which
the run reports success. -/
theorem shred_file_pass_structure (S : Nat) (cfg : Config) (rng : Nat → Nat)
    (corrupt : Nat → List Nat → List Nat) (hS : 0 < S)
    (hok : (shredFile true S cfg rng corrupt).success = true) :
    (∀ p, 1 ≤ p → p ≤ totalPasses cfg →
      writesOfPass (shredFile true S cfg rng corrupt).events p =
        passChunks (passByte cfg.method rng p) (min 1048576 S) S ∧
      (writesOfPass (shredFile true S cfg rng corrupt).events p).flatten =
        List.replicate S (passByte cfg.method rng p) ∧
      ((writesOfPass (shredFile true S cfg rng corrupt).events p).map List.length).sum = S ∧
      ∀ ch ∈ (writesOfPass (shredFile true S cfg rng corrupt).events p).dropLast,
        ch.length = min 1048576 S) ∧
    (∀ p, p = 0 ∨ totalPasses cfg < p →
      writesOfPass (shredFile true S cfg rng corrupt).events p = []) ∧
    (∃ pre, (shredFile true S cfg rng corrupt).events = pre ++ [Event.remove, Event.progress 1] ∧
      Event.remove ∉ pre) := by
  have heq := shredFile_success_eq S cfg rng corrupt hS hok
  have hc : 0 < min 1048576 S := by omega
  have hev : (shredFile true S cfg rng corrupt).events =
      segsFrom cfg.method cfg.verify S (min 1048576 S) (totalPasses cfg)
        (if cfg.verify then totalPasses cfg * 2 else totalPasses cfg) rng 1 (totalPasses cfg) ++
        [Event.remove, Event.progress 1] := by rw [heq]
  refine ⟨?_, ?_, ?_⟩
  · intro p hp1 hp2
    have hw : writesOfPass (shredFile true S cfg rng corrupt).events p =
        passChunks (passByte cfg.method rng p) (min 1048576 S) S := by
      rw [hev, writesOfPass_append, writesOfPass_segsFrom, if_pos ⟨hp1, by omega⟩]
      simp [writesOfPass]
    refine ⟨hw, ?_, ?_, ?_⟩
    · rw [hw]; exact passChunks_flatten _ _ _ hc
    · rw [hw]; exact passChunks_length_sum _ _ _ hc
    · rw [hw]; exact passChunks_dropLast_length _ _ _
  · intro p hp
    rw [hev, writesOfPass_append, writesOfPass_segsFrom, if_neg (by omega)]
    simp [writesOfPass]
  · exact ⟨_, hev, remove_not_mem_segsFrom _ _ _ _ _ _ _ _ _⟩

/-- C1 witness: a 3-byte file under BASIC with 2 passes and no
verification; pass 1 writes a single full chunk of three 0xFF bytes. -/
theorem shred_file_pass_structure_witness :
    0 < 3 ∧ (shredFile true 3 ⟨.basic, 2, false⟩ (fun _ => 0) (fun _ c => c)).success = true ∧
    writesOfPass (shredFile true 3 ⟨.basic, 2, false⟩ (fun _ => 0) (fun _ c => c)).events 1 =
      [[255, 255, 255]] :=
  ⟨by decide, by decide,
    by
      have h := (shred_file_pass_structure 3 ⟨.basic, 2, false⟩ (fun _ => 0) (fun _ c => c)
        (by decide) (by decide)).1 1 (by decide) (by decide)
      rw [h.1]
      decide⟩

/-- C2: under the DoD 5220.22-M method a successful `shred_file` on a
non-empty file performs exactly 7 passes with byte patterns following the
fixed sequence ones, zeros, random, zeros, ones, random, zeros — the five
fixed passes write exactly that byte at every position — and the
configured `passes` field has no effect on the run at all. -/
theorem dod_seven_pass_sequence (S n : Nat) (v : Bool) (rng : Nat → Nat)
    (corrupt : Nat → List Nat → List Nat) (hS : 0 < S)
    (hok : (shredFile true S ⟨.dod, n, v⟩ rng corrupt).success = true) :
    totalPasses ⟨.dod, n, v⟩ = 7 ∧
    (writesOfPass (shredFile true S ⟨.dod, n, v⟩ rng corrupt).events 1).flatten =
      List.replicate S 255 ∧
    (writesOfPass (shredFile true S ⟨.dod, n, v⟩ rng corrupt).events 2).flatten =
      List.replicate S 0 ∧
    (∃ b, b < 256 ∧ (writesOfPass (shredFile true S ⟨.dod, n, v⟩ rng corrupt).events 3).flatten =
      List.replicate S b) ∧
    (writesOfPass (shredFile true S ⟨.dod, n, v⟩ rng corrupt).events 4).flatten =
      List.replicate S 0 ∧
    (writesOfPass (shredFile true S ⟨.dod, n, v⟩ rng corrupt).events 5).flatten =
      List.replicate S 255 ∧
    (∃ b, b < 256 ∧ (writesOfPass (shredFile true S ⟨.dod, n, v⟩ rng corrupt).events 6).flatten =
      List.replicate S b) ∧
    (writesOfPass (shredFile true S ⟨.dod, n, v⟩ rng corrupt).events 7).flatten =
      List.replicate S 0 ∧
    (∀ p, p = 0 ∨ 7 < p →
      writesOfPass (shredFile true S ⟨.dod, n, v⟩ rng corrupt).events p = []) ∧
    (∀ m, shredFile true S ⟨.dod, n, v⟩ rng corrupt = shredFile true S ⟨.dod, m, v⟩ rng corrupt) := by
  have heq := shredFile_success_eq S ⟨.dod, n, v⟩ rng corrupt hS hok
  have hc : 0 < min 1048576 S := by omega
  have hev : (shredFile true S ⟨.dod, n, v⟩ rng corrupt).events =
      segsFrom .dod v S (min 1048576 S) 7 (if v then 7 * 2 else 7) rng 1 7 ++
        [Event.remove, Event.progress 1] := by rw [heq]; rfl
  have hw : ∀ p, 1 ≤ p → p ≤ 7 →
      writesOfPass (shredFile true S ⟨.dod, n, v⟩ rng corrupt).events p =
        passChunks (passByte .dod rng p) (min 1048576 S) S := by
    intro p hp1 hp2
    rw [hev, writesOfPass_append, writesOfPass_segsFrom, if_pos ⟨hp1, by omega⟩]
    simp [writesOfPass]
  have hfl : ∀ p, 1 ≤ p → p ≤ 7 →
      (writesOfPass (shredFile true S ⟨.dod, n, v⟩ rng corrupt).events p).flatten =
        List.replicate S (passByte .dod rng p) := by
    intro p hp1 hp2
    rw [hw p hp1 hp2]
    exact passChunks_flatten _ _ _ hc
  refine ⟨rfl, ?_, ?_, ?_, ?_, ?_, ?_, ?_, ?_, fun m => rfl⟩
  · simpa using hfl 1 (by omega) (by omega)
  · simpa using hfl 2 (by omega) (by omega)
  · exact ⟨rng (drawsBefore .dod 3) % 256, Nat.mod_lt _ (by omega),
      by simpa using hfl 3 (by omega) (by omega)⟩
  · simpa using hfl 4 (by omega) (by omega)
  · simpa using hfl 5 (by omega) (by omega)
  · exact ⟨rng (drawsBefore .dod 6) % 256, Nat.mod_lt _ (by omega),
      by simpa using hfl 6 (by omega) (by omega)⟩
  · simpa using hfl 7 (by omega) (by omega)
  · intro p hp
    rw [hev, writesOfPass_append, writesOfPass_segsFrom, if_neg (by omega)]
    simp [writesOfPass]

/-- C2 witness: a 2-byte file, DoD method with verification, a constant
random stream; the run succeeds and pass 1 writes two 0xFF bytes. -/
theorem dod_seven_pass_sequence_witness :
    0 < 2 ∧ (shredFile true 2 ⟨.dod, 3, true⟩ (fun _ => 9) (fun _ c => c)).success = true ∧
    (writesOfPass (shredFile true 2 ⟨.dod, 3, true⟩ (fun _ => 9) (fun _ c => c)).events 1).flatten =
      List.replicate 2 255 :=
  ⟨by decide, by decide,
    (dod_seven_pass_sequence 2 3 true (fun _ => 9) (fun _ c => c) (by decide) (by decide)).2.1⟩

/-- C4: if verification is enabled and the first failing verification is
at pass `k`, `shred_file` returns `False`, performs no overwrite pass
beyond `k`, and never deletes the file; in a batch the file is counted as
exactly one failure, every input file still receives its completion
callback, and the counters still add up to the number of inputs. -/
theorem verification_failure_aborts (S : Nat) (cfg : Config) (rng : Nat → Nat)
    (corrupt : Nat → List Nat → List Nat) (k : Nat)
    (hS : 0 < S) (hver : cfg.verify = true)
    (hk1 : 1 ≤ k) (hk2 : k ≤ totalPasses cfg)
    (hfail : verifyOKAt cfg.method S (min 1048576 S) rng corrupt k = false)
    (hbefore : ∀ p, 1 ≤ p → p < k →
      verifyOKAt cfg.method S (min 1048576 S) rng corrupt p = true) :
    (shredFile true S cfg rng corrupt).success = false ∧
    (∀ q, k < q → writesOfPass (shredFile true S cfg rng corrupt).events q = []) ∧
    Event.remove ∉ (shredFile true S cfg rng corrupt).events ∧
    (∀ pre post : List FileSpec,
      (shredFiles cfg (pre ++ ⟨true, S, rng, corrupt⟩ :: post)).successful +
        (shredFiles cfg (pre ++ ⟨true, S, rng, corrupt⟩ :: post)).failed =
        pre.length + post.length + 1 ∧
      (shredFiles cfg (pre ++ ⟨true, S, rng, corrupt⟩ :: post)).completions =
        (pre ++ ⟨true, S, rng, corrupt⟩ :: post).map
          (fun fs => (fs, (runSpec cfg fs).success)) ∧
      ((⟨true, S, rng, corrupt⟩ : FileSpec), false) ∈
        (shredFiles cfg (pre ++ ⟨true, S, rng, corrupt⟩ :: post)).completions) := by
  have hloop := shredLoop_fail cfg.method S (min 1048576 S) (totalPasses cfg)
    (if cfg.verify then totalPasses cfg * 2 else totalPasses cfg) rng corrupt k hk2 hfail
    (totalPasses cfg) 1 (by omega) le_rfl hk1
    (fun p h1 h2 => hbefore p h1 h2)
  rw [drawsBefore_one] at hloop
  have hfe : shredFile true S cfg rng corrupt =
      ⟨false, segsFrom cfg.method true S (min 1048576 S) (totalPasses cfg)
        (if cfg.verify then totalPasses cfg * 2 else totalPasses cfg) rng 1 (k - 1) ++
        writePhase (passByte cfg.method rng k) (min 1048576 S) k
          (if cfg.verify then totalPasses cfg * 2 else totalPasses cfg) S 0⟩ := by
    simp only [shredFile, if_neg (by simp : ¬(true = false)), if_neg (by omega : ¬S = 0)]
    rw [hver] at hloop ⊢
    rw [hloop]
    simp
  have hsuccess : (shredFile true S cfg rng corrupt).success = false := by rw [hfe]
  refine ⟨hsuccess, ?_, ?_, ?_⟩
  · intro q hq
    rw [hfe]
    show writesOfPass (_ ++ _) q = []
    rw [writesOfPass_append, writesOfPass_segsFrom, if_neg (by omega)]
    simp only [writePhase]
    rw [writesOfPass_writePhaseAux_ne _ _ _ _ _ (by omega)]
    rfl
  · rw [hfe]
    show Event.remove ∉ _ ++ _
    rw [List.mem_append]
    rintro (h | h)
    · exact remove_not_mem_segsFrom _ _ _ _ _ _ _ _ _ h
    · exact remove_not_mem_writePhaseAux _ _ _ _ _ _ 0 h
  · intro pre post
    have hbatch := shredFilesLoop_spec (fun fs => (runSpec cfg fs).success)
      (pre ++ ⟨true, S, rng, corrupt⟩ :: post) ⟨0, 0, []⟩
    rcases hbatch with ⟨hcount, hcomp⟩
    have hrs : (runSpec cfg (⟨true, S, rng, corrupt⟩ : FileSpec)).success = false := hsuccess
    refine ⟨?_, ?_, ?_⟩
    · rw [show shredFiles cfg (pre ++ ⟨true, S, rng, corrupt⟩ :: post) =
        shredFilesLoop (fun fs => (runSpec cfg fs).success) ⟨0, 0, []⟩
          (pre ++ ⟨true, S, rng, corrupt⟩ :: post) from rfl]
      rw [hcount]
      simp
      omega
    · rw [show shredFiles cfg (pre ++ ⟨true, S, rng, corrupt⟩ :: post) =
        shredFilesLoop (fun fs => (runSpec cfg fs).success) ⟨0, 0, []⟩
          (pre ++ ⟨true, S, rng, corrupt⟩ :: post) from rfl]
      rw [hcomp]
      simp
    · rw [show shredFiles cfg (pre ++ ⟨true, S, rng, corrupt⟩ :: post) =
        shredFilesLoop (fun fs => (runSpec cfg fs).success) ⟨0, 0, []⟩
          (pre ++ ⟨true, S, rng, corrupt⟩ :: post) from rfl]
      rw [hcomp]
      have hmem : (⟨true, S, rng, corrupt⟩ : FileSpec) ∈ pre ++ ⟨true, S, rng, corrupt⟩ :: post := by
        simp
      have hmm := List.mem_map_of_mem (fun fs => (fs, (runSpec cfg fs).success)) hmem
      simp only [hrs] at hmm
      simpa using hmm

/-- C4 witness: a 1-byte file whose pass-1 read-back observes a corrupted
byte; verification fails at pass 1, the run reports failure and the file
is not deleted. -/
theorem verification_failure_aborts_witness :
    verifyOKAt .basic 1 (min 1048576 1) (fun _ => 7)
      (fun p c => if p = 1 then [5] else c) 1 = false ∧
    (shredFile true 1 ⟨.basic, 2, true⟩ (fun _ => 7)
      (fun p c => if p = 1 then [5] else c)).success = false ∧
    Event.remove ∉ (shredFile true 1 ⟨.basic, 2, true⟩ (fun _ => 7)
      (fun p c => if p = 1 then [5] else c)).events :=
  ⟨by decide,
    (verification_failure_aborts 1 ⟨.basic, 2, true⟩ (fun _ => 7)
      (fun p c => if p = 1 then [5] else c) 1 (by decide) rfl (by decide) (by decide)
      (by decide) (fun p h1 h2 => absurd h2 (by omega))).1,
    (verification_failure_aborts 1 ⟨.basic, 2, true⟩ (fun _ => 7)
      (fun p c => if p = 1 then [5] else c) 1 (by decide) rfl (by decide) (by decide)
      (by decide) (fun p h1 h2 => absurd h2 (by omega))).2.2.1⟩

/-- C6 counterexample: a `.txt` candidate whose content read fails with an
I/O error while evaluating the configured content-exclude filter is NOT
treated as excluded: `_check_file_content` swallows the error as
`(False, 0)`, which for exclude semantics means "keep", so the file that
could not be fully evaluated lands in the matched set (and is not counted
as excluded). -/
theorem exclude_content_io_failure_counterexample :
    (findFiles false false (fun _ p => p = "*")
      { includePatterns := ["*"], excludePatterns := [], ownerRegex := none,
        createdAfter := none, createdBefore := none, modifiedAfter := none,
        modifiedBefore := none, contentPattern := none, contentMinOccurrences := 1,
        excludeContentPattern := some "secret", excludeContentMinOccurrences := 1,
        ocrEnabled := true }
      [{ filename := "a.txt", stat := some ⟨0, 0, none⟩,
         content := { text := none, pdfText := none, ocrOccurrences := none } }]).1.map
      Candidate.filename = ["a.txt"] ∧
    (findFiles false false (fun _ p => p = "*")
      { includePatterns := ["*"], excludePatterns := [], ownerRegex := none,
        createdAfter := none, createdBefore := none, modifiedAfter := none,
        modifiedBefore := none, contentPattern := none, contentMinOccurrences := 1,
        excludeContentPattern := some "secret", excludeContentMinOccurrences := 1,
        ocrEnabled := true }
      [{ filename := "a.txt", stat := some ⟨0, 0, none⟩,
         content := { text := none, pdfText := none, ocrOccurrences := none } }]).2 = 0 := by
  exact ⟨by decide, by decide⟩

/-- C6 (amended): a stat failure always excludes a candidate from the
matched set, and an I/O failure while evaluating a configured
content-INCLUDE filter on a `.txt`/`.csv` candidate also excludes it; but
an I/O failure during a content-EXCLUDE evaluation is swallowed as "no
match" and does not exclude (see the counterexample). -/
theorem discovery_io_failure_exclusion (ocrAvail pdfLoaded : Bool)
    (fnmatch : String → String → Bool) (cr : FindCriteria) (c : Candidate)
    (h : c.stat = none ∨
      (optTruthy cr.contentPattern = true ∧
        lowerEndsWithAny c.filename [".txt", ".csv"] = true ∧
        (extOf (strToLower c.filename) = ".txt" ∨ extOf (strToLower c.filename) = ".csv") ∧
        c.content.text = none)) :
    evalCandidate ocrAvail pdfLoaded fnmatch cr c ≠ Verdict.matched := by
  simp only [evalCandidate]
  cases hM : cr.includePatterns.any (fun p => fnmatch c.filename p) with
  | false => simp
  | true =>
    cases hE : cr.excludePatterns.any (fun p => fnmatch c.filename p) with
    | true => simp
    | false =>
      rcases h with hstat | ⟨h1, h2, h3, h4⟩
      · rw [hstat]
        simp
      · cases hstat : c.stat with
        | none => simp
        | some st =>
          have hcfc : (checkFileContent ocrAvail c (cr.contentPattern.getD "")
              cr.contentMinOccurrences).1 = false := by
            rcases h3 with h3 | h3 <;>
              simp [checkFileContent, h3, h4, ocrFormats, textContentExts]
          cases hT : timeExcluded cr st <;> cases hO : ownerExcluded cr st <;>
            simp [h1, h2, hcfc, hT, hO]

/-- C6 amended witness: a candidate whose `os.stat` raised is never
matched. -/
theorem discovery_io_failure_exclusion_witness :
    ({ filename := "b.txt", stat := none,
       content := { text := none, pdfText := none, ocrOccurrences := none } } : Candidate).stat
      = none ∧
    evalCandidate false false (fun _ p => p = "*")
      { includePatterns := ["*"], excludePatterns := [], ownerRegex := none,
        createdAfter := none, createdBefore := none, modifiedAfter := none,
        modifiedBefore := none, contentPattern := none, contentMinOccurrences := 1,
        excludeContentPattern := none, excludeContentMinOccurrences := 1,
        ocrEnabled := true }
      { filename := "b.txt", stat := none,
        content := { text := none, pdfText := none, ocrOccurrences := none } } ≠
      Verdict.matched :=
  ⟨rfl,
    discovery_io_failure_exclusion false false (fun _ p => p = "*")
      { includePatterns := ["*"], excludePatterns := [], ownerRegex := none,
        createdAfter := none, createdBefore := none, modifiedAfter := none,
        modifiedBefore := none, contentPattern := none, contentMinOccurrences := 1,
        excludeContentPattern := none, excludeContentMinOccurrences := 1,
        ocrEnabled := true }
      { filename := "b.txt", stat := none,
        content := { text := none, pdfText := none, ocrOccurrences := none } }
      (Or.inl rfl)⟩

/-- C8 counterexample: a `.json` candidate bypasses the content-include
filter entirely — `find_files` only submits `.txt`/`.csv` (or PDF/image)
names to `_check_file_content` — so a `.json` file with zero occurrences
of the pattern still lands in the matched set, refuting the claimed
"if and only if" for the spec's full plain-text extension list. -/
theorem json_content_filter_bypass_counterexample :
    strCount "" "secret" = 0 ∧
    (findFiles false false (fun _ p => p = "*")
      { includePatterns := ["*"], excludePatterns := [], ownerRegex := none,
        createdAfter := none, createdBefore := none, modifiedAfter := none,
        modifiedBefore := none, contentPattern := some "secret", contentMinOccurrences := 1,
        excludeContentPattern := none, excludeContentMinOccurrences := 1,
        ocrEnabled := true }
      [{ filename := "a.json", stat := some ⟨0, 0, none⟩,
         content := { text := some "", pdfText := none, ocrOccurrences := none } }]).1.map
      Candidate.filename = ["a.json"] := by
  exact ⟨by decide, by decide⟩

/-- C8 (amended): the content-include filter with minimum-occurrence
threshold works as claimed exactly for the `.txt` and `.csv` kinds that
`find_files` actually submits to `_check_file_content`: such a candidate
(glob-matched, metadata-clean, readable) is matched if and only if the
number of non-overlapping case-sensitive occurrences of the pattern in
its text reaches the threshold.  Other plain-text-like extensions
(`.json`, `.xml`, `.html`, `.js`, `.py`, `.md`) skip the filter (see the
counterexample). -/
theorem text_content_filter (ocrAvail pdfLoaded : Bool)
    (fnmatch : String → String → Bool) (cr : FindCriteria) (c : Candidate)
    (st : FileStat) (t pat : String)
    (hM : cr.includePatterns.any (fun p => fnmatch c.filename p) = true)
    (hE : cr.excludePatterns.any (fun p => fnmatch c.filename p) = false)
    (hstat : c.stat = some st)
    (hT : timeExcluded cr st = false)
    (hO : ownerExcluded cr st = false)
    (hcp : cr.contentPattern = some pat)
    (hne : optTruthy cr.contentPattern = true)
    (hgate : lowerEndsWithAny c.filename [".txt", ".csv"] = true)
    (hext : extOf (strToLower c.filename) = ".txt" ∨ extOf (strToLower c.filename) = ".csv")
    (htext : c.content.text = some t)
    (hnoex : optTruthy cr.excludeContentPattern = false) :
    evalCandidate ocrAvail pdfLoaded fnmatch cr c = Verdict.matched ↔
      cr.contentMinOccurrences ≤ strCount t pat := by
  have hcfc : checkFileContent ocrAvail c pat cr.contentMinOccurrences =
      (decide (strCount t pat ≥ cr.contentMinOccurrences), strCount t pat) := by
    rcases hext with h | h <;> simp [checkFileContent, h, htext, ocrFormats, textContentExts]
  have hne2 : optTruthy (some pat) = true := by rw [← hcp]; exact hne
  by_cases hocc : cr.contentMinOccurrences ≤ strCount t pat
  · simp [evalCandidate, hM, hE, hstat, hT, hO, hne, hne2, hgate, hnoex, hcp, hcfc, hocc]
  · simp [evalCandidate, hM, hE, hstat, hT, hO, hne, hne2, hgate, hnoex, hcp, hcfc, hocc]

/-- C8 amended witness: the spec's example — a `.txt` file containing
"secret" exactly 3 times is matched at threshold 3 and excluded at
threshold 4. -/
theorem text_content_filter_witness :
    strCount "secret one secret two secret" "secret" = 3 ∧
    evalCandidate false false (fun _ p => p = "*")
      { includePatterns := ["*"], excludePatterns := [], ownerRegex := none,
        createdAfter := none, createdBefore := none, modifiedAfter := none,
        modifiedBefore := none, contentPattern := some "secret", contentMinOccurrences := 3,
        excludeContentPattern := none, excludeContentMinOccurrences := 1,
        ocrEnabled := true }
      { filename := "a.txt", stat := some ⟨0, 0, none⟩,
        content := { text := some "secret one secret two secret", pdfText := none,
                     ocrOccurrences := none } } = Verdict.matched ∧
    evalCandidate false false (fun _ p => p = "*")
      { includePatterns := ["*"], excludePatterns := [], ownerRegex := none,
        createdAfter := none, createdBefore := none, modifiedAfter := none,
        modifiedBefore := none, contentPattern := some "secret", contentMinOccurrences := 4,
        excludeContentPattern := none, excludeContentMinOccurrences := 1,
        ocrEnabled := true }
      { filename := "a.txt", stat := some ⟨0, 0, none⟩,
        content := { text := some "secret one secret two secret", pdfText := none,
                     ocrOccurrences := none } } = Verdict.excluded :=
  ⟨by decide,
    (text_content_filter false false (fun _ p => p = "*") _ _ ⟨0, 0, none⟩
      "secret one secret two secret" "secret" (by decide) (by decide) rfl (by decide)
      (by decide) rfl (by decide) (by decide) (Or.inl (by decide)) rfl (by decide)).mpr
      (by decide),
    by decide⟩

end Shredder
